import Mathlib

/-!
Verification of the streaming chain-of-thought transducer in
`ragflow_deepseek_cot_optimizer.py` (class `Pipe`).

Strings are modelled as `List Char`.  The Python `while` loops of
`_transform_chunk` are modelled as fuel-indexed structural recursions
(`thinkLoopF`, `closeLoopF`) together with wrappers that supply enough fuel;
fuel-irrelevance lemmas below recover the exact loop equations, so the
wrappers compute the same function the source loops compute.
-/

namespace CoT

/-- A chunk of streamed text, modelled as a list of characters. -/
abbrev Chunk := List Char

/-- The opening marker `<think>` (source line 207). -/
def openTag : Chunk := "<think>".toList

/-- The closing marker `</think>` (source line 219). -/
def closeTag : Chunk := "</think>".toList

/-- The block-open decoration inserted for the first opener (source line 212). -/
def openDeco : Chunk := "\n```Reasoning...\n".toList

/-- The block-close decoration inserted for a final closer (source line 222). -/
def closeDeco : Chunk := "\n```\n".toList

/-- The leftover-fragment patterns removed in order (source line 227). -/
def fragPatterns : List Chunk :=
  ["/think>", "think>", "hink>", "ink>", "nk>", "k>"].map String.toList

/-- Locate the leftmost occurrence of `pat` in `s`: returns the part before the
occurrence and the part after it.  This models Python `s.index(pat)` /
the `pat in s` test. -/
def splitFirst (pat : Chunk) : Chunk → Option (Chunk × Chunk)
  | [] => if pat.isPrefixOf ([] : Chunk) then some ([], []) else none
  | c :: rest =>
    if pat.isPrefixOf (c :: rest) then some ([], (c :: rest).drop pat.length)
    else (splitFirst pat rest).map (fun p => (c :: p.1, p.2))

/-- Python's `pat in s` substring test. -/
def hasOcc (pat s : Chunk) : Bool := (splitFirst pat s).isSome

/-- Scanner for Python's `s.replace(pat, "")`: scan left to right over the
original string; on a match emit nothing and skip the matched characters
(the `skip` counter), otherwise copy the character.  Replaced regions are not
rescanned, exactly as in CPython `str.replace`. -/
def removeAllAux (pat : Chunk) : Chunk → Nat → Chunk
  | [], _ => []
  | _ :: rest, skip + 1 => removeAllAux pat rest skip
  | c :: rest, 0 =>
    if pat.isPrefixOf (c :: rest) then removeAllAux pat rest (pat.length - 1)
    else c :: removeAllAux pat rest 0

/-- Python `s.replace(pat, "")`. -/
def removePat (pat s : Chunk) : Chunk := removeAllAux pat s 0

/-- The fragment-removal pass of `_transform_chunk` (source lines 226-228):
`for pattern in [...]: result = result.replace(pattern, "")`. -/
def stripFragments (s : Chunk) : Chunk :=
  fragPatterns.foldl (fun acc pat => removePat pat acc) s

/-- Fuel-indexed body of the first `while` loop of `_transform_chunk`
(source lines 207-217): while `<think>` occurs, replace the leftmost
occurrence by the decoration if the context flag is still false (setting it),
else delete it. -/
def thinkLoopF : Nat → Chunk → Bool → Chunk × Bool
  | 0, s, flag => (s, flag)
  | fuel + 1, s, flag =>
    match splitFirst openTag s with
    | none => (s, flag)
    | some (a, b) =>
      if flag then thinkLoopF fuel (a ++ b) flag
      else thinkLoopF fuel (a ++ openDeco ++ b) true

/-- Termination measure for the `<think>` loop: a deletion shortens the string
by 7, and the single replacement (flag false, +10 characters) happens at most
once. -/
def thinkMeasure (s : Chunk) (flag : Bool) : Nat :=
  s.length + cond flag 0 (s.length + 18)

/-- The first `while` loop of `_transform_chunk`, with enough fuel to run to
completion (`thinkLoopF_congr` below shows the amount is irrelevant). -/
def thinkLoop (s : Chunk) (flag : Bool) : Chunk × Bool :=
  thinkLoopF (2 * s.length + 19) s flag

/-- Fuel-indexed body of the second `while` loop of `_transform_chunk`
(source lines 219-225): while `</think>` occurs, replace the leftmost
occurrence by the close decoration if `is_last_think`, else delete it. -/
def closeLoopF : Nat → Chunk → Bool → Chunk
  | 0, s, _ => s
  | fuel + 1, s, last =>
    match splitFirst closeTag s with
    | none => s
    | some (a, b) =>
      if last then closeLoopF fuel (a ++ closeDeco ++ b) last
      else closeLoopF fuel (a ++ b) last

/-- The second `while` loop of `_transform_chunk`, with enough fuel (each
iteration shortens the string by at least 3). -/
def closeLoop (s : Chunk) (last : Bool) : Chunk :=
  closeLoopF (s.length + 1) s last

/-- `Pipe._transform_chunk` (source lines 201-230).  The context dict
`{"first_think_found": ...}` is the threaded `Bool`; the function returns the
rewritten text and the updated flag. -/
def transform_chunk (chunk : Chunk) (is_last_think first_think_found : Bool) :
    Chunk × Bool :=
  let r := thinkLoop chunk first_think_found
  (stripFragments (closeLoop r.1 is_last_think), r.2)

/-- One iteration of the `<think>` loop body (source lines 208-217), as a
step function: `none` when the loop guard fails. -/
def thinkStep (s : Chunk) (flag : Bool) : Option (Chunk × Bool) :=
  match splitFirst openTag s with
  | none => none
  | some (a, b) =>
    if flag then some (a ++ b, flag) else some (a ++ openDeco ++ b, true)

/-- One iteration of the `</think>` loop body (source lines 220-225). -/
def closeStep (s : Chunk) (last : Bool) : Option Chunk :=
  match splitFirst closeTag s with
  | none => none
  | some (a, b) => if last then some (a ++ closeDeco ++ b) else some (a ++ b)

/-- Fueled count of leftmost non-overlapping occurrences of `pat`. -/
def countOccF : Nat → Chunk → Chunk → Nat
  | 0, _, _ => 0
  | fuel + 1, pat, s =>
    match splitFirst pat s with
    | none => 0
    | some (_, b) => countOccF fuel pat b + 1

/-- Number of leftmost non-overlapping occurrences of `pat` in `s`
(each occurrence found by `splitFirst`, continuing after it). -/
def countOcc (pat s : Chunk) : Nat := countOccF (s.length + 1) pat s

/-- Fueled delete-only opener loop. -/
def deleteOpenersF : Nat → Chunk → Chunk
  | 0, s => s
  | fuel + 1, s =>
    match splitFirst openTag s with
    | none => s
    | some (a, b) => deleteOpenersF fuel (a ++ b)

/-- Modelled from the spec: "every subsequent `<think>` is deleted with
nothing inserted" — the opener loop restricted to pure deletion, used to
characterise `thinkLoop` once the context flag is set.  (The fuel matches
`thinkLoop` so the two loops run in lockstep.) -/
def deleteOpeners (s : Chunk) : Chunk := deleteOpenersF (2 * s.length + 19) s

/-- Fuel-indexed body of the `while i < len(buffer)` loop of
`_try_finalize_chunks` (source lines 153-187).  Arguments mirror the Python
locals: the buffer, the index `i`, the `finalized` accumulator, the context
flag, and the `partial` parameter (`part`).  Every loop iteration either
returns (the `break` at line 165 and the loop-guard failure) or pops one
element and continues with the same `i` (the trailing `i += 1` at line 185 is
unreachable: both branches of the `if` end in `break` or `continue`), so one
unit of fuel per buffered chunk suffices. -/
def tryLoopF : Nat → List Chunk → Nat → List Chunk → Bool → Bool →
    List Chunk × List Chunk × Bool
  | 0, buffer, _, finalized, flag, _ => (finalized, buffer, flag)
  | fuel + 1, buffer, i, finalized, flag, part =>
    if h : i < buffer.length then
      let chunk := buffer[i]
      if hasOcc closeTag chunk then
        if part && decide (buffer.length ≤ i + 5) then (finalized, buffer, flag)
        else
          let buffer2 := buffer.eraseIdx i
          let next5 := (buffer2.drop i).take 5
          let hasMore := next5.any (fun c => hasOcc closeTag c)
          let t := transform_chunk chunk (!hasMore) flag
          tryLoopF fuel buffer2 i (finalized ++ [t.1]) t.2 part
      else
        let buffer2 := buffer.eraseIdx i
        let t := transform_chunk chunk false flag
        tryLoopF fuel buffer2 i (finalized ++ [t.1]) t.2 part
    else (finalized, buffer, flag)

/-- `Pipe._try_finalize_chunks` (source lines 146-187): returns the finalized
output list, the remaining buffer, and the updated context flag. -/
def try_finalize_chunks (buffer : List Chunk) (flag part : Bool) :
    List Chunk × List Chunk × Bool :=
  tryLoopF (buffer.length + 1) buffer 0 [] flag part

/-- `Pipe._finalize_all_chunks` (source lines 189-199): drain the buffer from
the front (`while buffer: chunk = buffer.pop(0)`), transforming every chunk
with `is_last_think=True`; returns the yielded chunks, the final (empty)
buffer state left by the drain loop, and the updated flag. -/
def finalize_all_chunks : List Chunk → Bool → List Chunk × List Chunk × Bool
  | [], flag => ([], [], flag)
  | c :: rest, flag =>
    let t := transform_chunk c true flag
    let r := finalize_all_chunks rest t.2
    (t.1 :: r.1, r.2.1, r.2.2)

/-- The per-chunk data path of `pipe` (source lines 125-138): append the new
chunk to the buffer, run `_try_finalize_chunks` in partial mode, and emit the
finalized fragments; returns all emitted fragments, the remaining buffer and
the flag. -/
def transduceLoop : List Chunk → List Chunk → Bool → List Chunk × List Chunk × Bool
  | [], buf, flag => ([], buf, flag)
  | c :: rest, buf, flag =>
    let r1 := try_finalize_chunks (buf ++ [c]) flag true
    let r2 := transduceLoop rest r1.2.1 r1.2.2
    (r1.1 ++ r2.1, r2.2)

/-- Whole-stream behaviour of the transducer on a chunk sequence followed by
end of stream: the partial-mode fragments emitted while chunks arrive, then
the fragments of the forced finalization run on the `[DONE]` path
(source lines 97-103).  Fresh per-request state: empty buffer,
`first_think_found=False` (source lines 76-77). -/
def transduceParts (chunks : List Chunk) : List Chunk × List Chunk :=
  let r := transduceLoop chunks [] false
  (r.1, (finalize_all_chunks r.2.1 r.2.2).1)

/-- All output fragments of the transducer for a chunk sequence followed by
end of stream, in order. -/
def transduce (chunks : List Chunk) : List Chunk :=
  (transduceParts chunks).1 ++ (transduceParts chunks).2

/-- One upstream protocol line, abstracted by the tests `pipe` applies to it
(source lines 92-127): a line without the `data:` prefix, the `[DONE]`
terminator, a line whose JSON fails to parse (`json.JSONDecodeError`), a
parsed line with an empty `choices` list, a line whose first choice carries a
truthy `finish_reason`, a delta line carrying chunk text
(`reasoning_content + content`), or an exception raised while streaming
(caught by the `except Exception` handler at line 140). -/
inductive Line where
  | noData : Line
  | done : Line
  | malformed : Line
  | noChoices : Line
  | finished : Line
  | delta : Chunk → Line
  | exc : Line
deriving DecidableEq

/-- One value yielded by the `pipe` generator: a text fragment, or an error
payload (`_format_error` / `_format_exception`). -/
inductive Out where
  | frag : Chunk → Out
  | err : Out
deriving DecidableEq

/-- Observable result of running the streaming section of `pipe`: the yielded
values in order, how many times `_finalize_all_chunks` ran, and the buffer
and context flag at generator exit. -/
structure RunResult where
  outs : List Out
  flushes : Nat
  buf : List Chunk
  flag : Bool
deriving DecidableEq

/-- The streaming loop of `pipe` (source lines 92-144) over abstracted lines,
starting from a given buffer and context flag.  Each exit path follows the
source: `[DONE]` and a truthy `finish_reason` run the forced finalization and
return; a JSON decode error yields the error payload and returns at once
(lines 105-110), with no finalization; an exception runs the forced
finalization, then yields the exception payload (lines 140-144); exhausting
the lines without a terminator simply ends the generator. -/
def pipeRun : List Line → List Chunk → Bool → RunResult
  | [], buf, flag => ⟨[], 0, buf, flag⟩
  | Line.noData :: rest, buf, flag => pipeRun rest buf flag
  | Line.noChoices :: rest, buf, flag => pipeRun rest buf flag
  | Line.done :: _, buf, flag =>
    let r := finalize_all_chunks buf flag
    ⟨r.1.map Out.frag, 1, r.2.1, r.2.2⟩
  | Line.finished :: _, buf, flag =>
    let r := finalize_all_chunks buf flag
    ⟨r.1.map Out.frag, 1, r.2.1, r.2.2⟩
  | Line.malformed :: _, buf, flag => ⟨[Out.err], 0, buf, flag⟩
  | Line.exc :: _, buf, flag =>
    let r := finalize_all_chunks buf flag
    ⟨r.1.map Out.frag ++ [Out.err], 1, r.2.1, r.2.2⟩
  | Line.delta c :: rest, buf, flag =>
    let r1 := try_finalize_chunks (buf ++ [c]) flag true
    let r := pipeRun rest r1.2.1 r1.2.2
    ⟨r1.1.map Out.frag ++ r.outs, r.flushes, r.buf, r.flag⟩

/-- Which exit path a line sequence drives `pipe` through: the first
terminating line wins (the code `return`s there), and exhaustion without a
terminator is the end-of-stream exit. -/
inductive ExitKind where
  | eof : ExitKind
  | done : ExitKind
  | finished : ExitKind
  | malformed : ExitKind
  | exc : ExitKind
deriving DecidableEq

/-- Classify the exit path of a line sequence. -/
def exitKind : List Line → ExitKind
  | [] => ExitKind.eof
  | Line.done :: _ => ExitKind.done
  | Line.finished :: _ => ExitKind.finished
  | Line.malformed :: _ => ExitKind.malformed
  | Line.exc :: _ => ExitKind.exc
  | Line.noData :: rest => exitKind rest
  | Line.noChoices :: rest => exitKind rest
  | Line.delta _ :: rest => exitKind rest

/-! ### Basic facts about `splitFirst`, `hasOcc` and the removal scanners -/

lemma openTag_length : openTag.length = 7 := rfl

lemma closeTag_length : closeTag.length = 8 := rfl

lemma openDeco_length : openDeco.length = 17 := rfl

lemma closeDeco_length : closeDeco.length = 5 := rfl

lemma splitFirst_some : ∀ {s a b : Chunk} {pat : Chunk},
    splitFirst pat s = some (a, b) → s = a ++ pat ++ b := by
  intro s
  induction s with
  | nil =>
    intro a b pat h
    unfold splitFirst at h
    split at h
    case isTrue hp =>
      have hpat : pat = [] := List.prefix_nil.mp ((List.isPrefixOf_iff_prefix).mp hp)
      simp only [Option.some.injEq, Prod.mk.injEq] at h
      simp [hpat, ← h.1, ← h.2]
    case isFalse hp => exact absurd h (by simp)
  | cons c rest ih =>
    intro a b pat h
    unfold splitFirst at h
    split at h
    case isTrue hp =>
      simp only [Option.some.injEq, Prod.mk.injEq] at h
      obtain ⟨t, ht⟩ := (List.isPrefixOf_iff_prefix).mp hp
      rw [← h.1, ← h.2, ← ht]
      simp [List.drop_left]
    case isFalse hp =>
      cases hsp : splitFirst pat rest with
      | none => rw [hsp] at h; exact absurd h (by simp)
      | some p =>
        rw [hsp] at h
        have h2 : some (c :: p.1, p.2) = some (a, b) := h
        have h3 := Option.some.inj h2
        have ha := congrArg Prod.fst h3
        have hb := congrArg Prod.snd h3
        simp only at ha hb
        rw [← ha, ← hb, ih hsp]
        simp

lemma splitFirst_none : ∀ {s : Chunk} {pat a b : Chunk},
    splitFirst pat s = none → s ≠ a ++ pat ++ b := by
  intro s
  induction s with
  | nil =>
    intro pat a b h heq
    unfold splitFirst at h
    split at h
    case isTrue hp => exact absurd h (by simp)
    case isFalse hp =>
      have h0 := List.append_eq_nil.mp heq.symm
      have h1 := List.append_eq_nil.mp h0.1
      have hpat : pat = [] := h1.2
      subst hpat
      exact hp (by simp [List.isPrefixOf])
  | cons c rest ih =>
    intro pat a b h heq
    unfold splitFirst at h
    split at h
    case isTrue hp => exact absurd h (by simp)
    case isFalse hp =>
      have hrest : splitFirst pat rest = none := by
        cases hsp : splitFirst pat rest with
        | none => rfl
        | some p => rw [hsp] at h; exact absurd h (by simp)
      cases a with
      | nil =>
        apply hp
        apply (List.isPrefixOf_iff_prefix).mpr
        exact ⟨b, by simpa using heq.symm⟩
      | cons a0 a1 =>
        have h1 : c = a0 ∧ rest = a1 ++ (pat ++ b) := by
          simpa using heq
        exact ih hrest (by rw [List.append_assoc]; exact h1.2)

lemma hasOcc_iff {pat s : Chunk} :
    hasOcc pat s = true ↔ ∃ a b, s = a ++ pat ++ b := by
  constructor
  · intro h
    unfold hasOcc at h
    cases hsp : splitFirst pat s with
    | none => rw [hsp] at h; exact absurd h (by simp)
    | some p => exact ⟨p.1, p.2, splitFirst_some (by rw [hsp])⟩
  · intro ⟨a, b, hab⟩
    unfold hasOcc
    cases hsp : splitFirst pat s with
    | none => exact absurd hab (splitFirst_none hsp)
    | some p => rfl

lemma hasOcc_false_split {pat s : Chunk} (h : hasOcc pat s = false) :
    splitFirst pat s = none := by
  unfold hasOcc at h
  cases hsp : splitFirst pat s with
  | none => rfl
  | some p => rw [hsp] at h; exact absurd h (by simp)

/-- If `small` is a factor of `big` and `small` never occurs in `s`, then
`big` never occurs in `s`. -/
lemma hasOcc_sub_false {big small s : Chunk} (u v : Chunk)
    (hbig : big = u ++ small ++ v) (h : hasOcc small s = false) :
    hasOcc big s = false := by
  cases hb : hasOcc big s with
  | false => rfl
  | true =>
    exfalso
    obtain ⟨a, b, hab⟩ := hasOcc_iff.mp hb
    have : hasOcc small s = true := by
      apply hasOcc_iff.mpr
      exact ⟨a ++ u, v ++ b, by rw [hab, hbig]; simp⟩
    rw [this] at h
    exact absurd h (by simp)

lemma removeAllAux_id : ∀ {s : Chunk} {pat : Chunk},
    splitFirst pat s = none → removeAllAux pat s 0 = s := by
  intro s
  induction s with
  | nil => intro pat _; rfl
  | cons c rest ih =>
    intro pat h
    unfold splitFirst at h
    split at h
    case isTrue hp => exact absurd h (by simp)
    case isFalse hp =>
      have hrest : splitFirst pat rest = none := by
        cases hsp : splitFirst pat rest with
        | none => rfl
        | some p => rw [hsp] at h; exact absurd h (by simp)
      unfold removeAllAux
      rw [if_neg hp, ih hrest]

lemma removePat_id {pat s : Chunk} (h : hasOcc pat s = false) :
    removePat pat s = s :=
  removeAllAux_id (hasOcc_false_split h)

lemma stripFragments_id {s : Chunk}
    (h : ∀ pat ∈ fragPatterns, hasOcc pat s = false) :
    stripFragments s = s := by
  have h1 := removePat_id (h ("/think>".toList) (by simp [fragPatterns]))
  have h2 := removePat_id (h ("think>".toList) (by simp [fragPatterns]))
  have h3 := removePat_id (h ("hink>".toList) (by simp [fragPatterns]))
  have h4 := removePat_id (h ("ink>".toList) (by simp [fragPatterns]))
  have h5 := removePat_id (h ("nk>".toList) (by simp [fragPatterns]))
  have h6 := removePat_id (h ("k>".toList) (by simp [fragPatterns]))
  simp only [stripFragments, fragPatterns, List.map, List.foldl]
  rw [h1, h2, h3, h4, h5, h6]

/-! ### Loop equations: the fuel in the wrappers is irrelevant -/

lemma thinkLoopF_congr : ∀ (f g : Nat) (s : Chunk) (flag : Bool),
    thinkMeasure s flag < f → thinkMeasure s flag < g →
    thinkLoopF f s flag = thinkLoopF g s flag := by
  intro f
  induction f with
  | zero => intro g s flag hf _; exact absurd hf (Nat.not_lt_zero _)
  | succ f ih =>
    intro g s flag hf hg
    cases g with
    | zero => exact absurd hg (Nat.not_lt_zero _)
    | succ g =>
      simp only [thinkLoopF]
      cases hsp : splitFirst openTag s with
      | none => rfl
      | some p =>
        obtain ⟨a, b⟩ := p
        have hlen : s.length = a.length + 7 + b.length := by
          rw [splitFirst_some hsp]
          simp only [List.length_append, openTag_length]
        cases flag with
        | true =>
          simp only [if_pos]
          apply ih
          · simp only [thinkMeasure, cond_true, List.length_append] at hf ⊢
            omega
          · simp only [thinkMeasure, cond_true, List.length_append] at hg ⊢
            omega
        | false =>
          simp only [Bool.false_eq_true, if_neg, if_false]
          apply ih
          · simp only [thinkMeasure, cond_true, cond_false, List.length_append,
              openDeco_length] at hf ⊢
            omega
          · simp only [thinkMeasure, cond_true, cond_false, List.length_append,
              openDeco_length] at hg ⊢
            omega

lemma thinkLoopF_eq_general (f : Nat) (s : Chunk) (flag : Bool)
    (hf : thinkMeasure s flag < f) :
    thinkLoopF f s flag =
      match splitFirst openTag s with
      | none => (s, flag)
      | some (a, b) =>
        if flag then thinkLoop (a ++ b) flag
        else thinkLoop (a ++ openDeco ++ b) true := by
  cases f with
  | zero => exact absurd hf (Nat.not_lt_zero _)
  | succ f =>
    simp only [thinkLoopF]
    cases hsp : splitFirst openTag s with
    | none => rfl
    | some p =>
      obtain ⟨a, b⟩ := p
      have hlen : s.length = a.length + 7 + b.length := by
        rw [splitFirst_some hsp]
        simp only [List.length_append, openTag_length]
      cases flag with
      | true =>
        simp only [if_pos]
        unfold thinkLoop
        apply thinkLoopF_congr <;>
          · simp only [thinkMeasure, cond_true, List.length_append] at hf ⊢
            omega
      | false =>
        simp only [Bool.false_eq_true, if_neg, if_false]
        unfold thinkLoop
        apply thinkLoopF_congr <;>
          · simp only [thinkMeasure, cond_true, cond_false, List.length_append,
              openDeco_length] at hf ⊢
            omega

lemma thinkLoop_eq (s : Chunk) (flag : Bool) :
    thinkLoop s flag =
      match splitFirst openTag s with
      | none => (s, flag)
      | some (a, b) =>
        if flag then thinkLoop (a ++ b) flag
        else thinkLoop (a ++ openDeco ++ b) true :=
  thinkLoopF_eq_general (2 * s.length + 19) s flag
    (by simp only [thinkMeasure]; cases flag <;> simp <;> omega)

lemma closeLoopF_congr : ∀ (f g : Nat) (s : Chunk) (last : Bool),
    s.length < f → s.length < g →
    closeLoopF f s last = closeLoopF g s last := by
  intro f
  induction f with
  | zero => intro g s last hf _; exact absurd hf (Nat.not_lt_zero _)
  | succ f ih =>
    intro g s last hf hg
    cases g with
    | zero => exact absurd hg (Nat.not_lt_zero _)
    | succ g =>
      simp only [closeLoopF]
      cases hsp : splitFirst closeTag s with
      | none => rfl
      | some p =>
        obtain ⟨a, b⟩ := p
        have hlen : s.length = a.length + 8 + b.length := by
          rw [splitFirst_some hsp]
          simp only [List.length_append, closeTag_length]
        cases last with
        | true =>
          simp only [if_pos]
          apply ih <;> simp only [List.length_append, closeDeco_length] <;> omega
        | false =>
          simp only [Bool.false_eq_true, if_neg, if_false]
          apply ih <;> simp only [List.length_append] <;> omega

lemma closeLoopF_eq_general (f : Nat) (s : Chunk) (last : Bool)
    (hf : s.length < f) :
    closeLoopF f s last =
      match splitFirst closeTag s with
      | none => s
      | some (a, b) =>
        if last then closeLoop (a ++ closeDeco ++ b) last
        else closeLoop (a ++ b) last := by
  cases f with
  | zero => exact absurd hf (Nat.not_lt_zero _)
  | succ f =>
    simp only [closeLoopF]
    cases hsp : splitFirst closeTag s with
    | none => rfl
    | some p =>
      obtain ⟨a, b⟩ := p
      have hlen : s.length = a.length + 8 + b.length := by
        rw [splitFirst_some hsp]
        simp only [List.length_append, closeTag_length]
      cases last with
      | true =>
        simp only [if_pos]
        unfold closeLoop
        apply closeLoopF_congr <;>
          · simp only [List.length_append, closeDeco_length]
            omega
      | false =>
        simp only [Bool.false_eq_true, if_neg, if_false]
        unfold closeLoop
        apply closeLoopF_congr <;>
          · simp only [List.length_append]
            omega

lemma closeLoop_eq (s : Chunk) (last : Bool) :
    closeLoop s last =
      match splitFirst closeTag s with
      | none => s
      | some (a, b) =>
        if last then closeLoop (a ++ closeDeco ++ b) last
        else closeLoop (a ++ b) last :=
  closeLoopF_eq_general (s.length + 1) s last (Nat.lt_succ_self _)

lemma thinkLoop_none {s : Chunk} {flag : Bool}
    (h : splitFirst openTag s = none) : thinkLoop s flag = (s, flag) := by
  rw [thinkLoop_eq, h]

lemma closeLoop_none {s : Chunk} {last : Bool}
    (h : splitFirst closeTag s = none) : closeLoop s last = s := by
  rw [closeLoop_eq, h]

/-- Frame property of `_transform_chunk`: a chunk containing neither marker
nor any fragment pattern passes through unchanged, leaving the context
unchanged. -/
lemma transform_frame {chunk : Chunk} {last flag : Bool}
    (h1 : hasOcc openTag chunk = false) (h2 : hasOcc closeTag chunk = false)
    (h3 : ∀ pat ∈ fragPatterns, hasOcc pat chunk = false) :
    transform_chunk chunk last flag = (chunk, flag) := by
  unfold transform_chunk
  rw [thinkLoop_none (hasOcc_false_split h1)]
  simp only
  rw [closeLoop_none (hasOcc_false_split h2), stripFragments_id h3]

/-! ### The buffer scan of `_try_finalize_chunks` -/

lemma try_finalize_nil (flag part : Bool) :
    try_finalize_chunks [] flag part = ([], [], flag) := rfl

lemma tryLoopF_acc : ∀ (f : Nat) (buffer : List Chunk) (i : Nat)
    (fin1 fin2 : List Chunk) (flag part : Bool),
    tryLoopF f buffer i (fin1 ++ fin2) flag part =
      (fin1 ++ (tryLoopF f buffer i fin2 flag part).1,
       (tryLoopF f buffer i fin2 flag part).2) := by
  intro f
  induction f with
  | zero => intros; simp [tryLoopF]
  | succ f ih =>
    intro buffer i fin1 fin2 flag part
    by_cases h : i < buffer.length
    · by_cases hc : hasOcc closeTag buffer[i] = true
      · by_cases hp : (part && decide (buffer.length ≤ i + 5)) = true
        · simp only [tryLoopF, dif_pos h, if_pos hc, if_pos hp]
        · simp only [tryLoopF, dif_pos h, if_pos hc, if_neg hp]
          rw [List.append_assoc, ih]
      · simp only [tryLoopF, dif_pos h, if_neg hc]
        rw [List.append_assoc, ih]
    · simp only [tryLoopF, dif_neg h]

lemma tryLoopF_acc_nil (f : Nat) (buffer : List Chunk) (i : Nat)
    (fin : List Chunk) (flag part : Bool) :
    tryLoopF f buffer i fin flag part =
      (fin ++ (tryLoopF f buffer i [] flag part).1,
       (tryLoopF f buffer i [] flag part).2) := by
  have h := tryLoopF_acc f buffer i fin [] flag part
  simpa using h

/-- One step of the partial-mode scan, at the front of the buffer: the three
cases of `_try_finalize_chunks` with `partial=True`. -/
lemma try_finalize_cons (c : Chunk) (rest : List Chunk) (flag : Bool) :
    try_finalize_chunks (c :: rest) flag true =
      if hasOcc closeTag c = true then
        if rest.length < 5 then ([], c :: rest, flag)
        else
          ((transform_chunk c (!((rest.take 5).any (fun x => hasOcc closeTag x))) flag).1 ::
            (try_finalize_chunks rest
              (transform_chunk c (!((rest.take 5).any (fun x => hasOcc closeTag x))) flag).2 true).1,
           (try_finalize_chunks rest
              (transform_chunk c (!((rest.take 5).any (fun x => hasOcc closeTag x))) flag).2 true).2)
      else
        ((transform_chunk c false flag).1 ::
          (try_finalize_chunks rest (transform_chunk c false flag).2 true).1,
         (try_finalize_chunks rest (transform_chunk c false flag).2 true).2) := by
  have h0 : 0 < (c :: rest).length := by simp
  show tryLoopF (rest.length + 1 + 1) (c :: rest) 0 [] flag true = _
  generalize hfu : rest.length + 1 = fu
  simp only [tryLoopF, dif_pos h0, List.getElem_cons_zero, Bool.true_and,
    List.eraseIdx_cons_zero, List.drop_zero, List.nil_append]
  subst hfu
  by_cases hc : hasOcc closeTag c = true
  · rw [if_pos hc, if_pos hc]
    by_cases hlt : rest.length < 5
    · have hcond : (decide ((c :: rest).length ≤ 0 + 5)) = true := by
        simp only [List.length_cons, decide_eq_true_eq]
        omega
      rw [if_pos hcond, if_pos hlt]
    · have hcond : ¬ (decide ((c :: rest).length ≤ 0 + 5)) = true := by
        simp only [List.length_cons, decide_eq_true_eq]
        omega
      rw [if_neg hcond, if_neg hlt]
      rw [tryLoopF_acc_nil]
      rfl
  · rw [if_neg hc, if_neg hc]
    rw [tryLoopF_acc_nil]
    rfl

lemma tryLoopF_suffix : ∀ (f : Nat) (buffer : List Chunk)
    (fin : List Chunk) (flag part : Bool),
    List.IsSuffix (tryLoopF f buffer 0 fin flag part).2.1 buffer := by
  intro f
  induction f with
  | zero => intro buffer fin flag part; exact List.suffix_refl buffer
  | succ f ih =>
    intro buffer fin flag part
    cases buffer with
    | nil => exact List.suffix_refl []
    | cons c rest =>
      have h0 : 0 < (c :: rest).length := by simp
      simp only [tryLoopF, dif_pos h0, List.getElem_cons_zero,
        List.eraseIdx_cons_zero]
      by_cases hc : hasOcc closeTag c = true
      · rw [if_pos hc]
        by_cases hp : (part && decide ((c :: rest).length ≤ 0 + 5)) = true
        · rw [if_pos hp]
        · rw [if_neg hp]
          exact (ih rest _ _ part).trans (List.suffix_cons c rest)
      · rw [if_neg hc]
        exact (ih rest _ _ part).trans (List.suffix_cons c rest)

/-! ### The forced drain of `_finalize_all_chunks` -/

lemma finalize_length_empty : ∀ (buf : List Chunk) (flag : Bool),
    (finalize_all_chunks buf flag).1.length = buf.length ∧
    (finalize_all_chunks buf flag).2.1 = [] := by
  intro buf
  induction buf with
  | nil => intro flag; exact ⟨rfl, rfl⟩
  | cons c rest ih =>
    intro flag
    simp only [finalize_all_chunks, List.length_cons]
    exact ⟨by rw [(ih _).1], (ih _).2⟩

lemma finalize_append : ∀ (b1 b2 : List Chunk) (flag : Bool),
    (finalize_all_chunks (b1 ++ b2) flag).1 =
      (finalize_all_chunks b1 flag).1 ++
        (finalize_all_chunks b2 (finalize_all_chunks b1 flag).2.2).1 ∧
    (finalize_all_chunks (b1 ++ b2) flag).2.2 =
      (finalize_all_chunks b2 (finalize_all_chunks b1 flag).2.2).2.2 := by
  intro b1
  induction b1 with
  | nil => intro b2 flag; exact ⟨rfl, rfl⟩
  | cons c rest ih =>
    intro b2 flag
    simp only [List.cons_append, finalize_all_chunks, List.append_eq]
    constructor
    · rw [(ih b2 _).1]
    · rw [(ih b2 _).2]

/-! ### Flag behaviour: set once, never reset -/

lemma thinkLoopF_true_delete : ∀ (f : Nat) (s : Chunk),
    thinkLoopF f s true = (deleteOpenersF f s, true) := by
  intro f
  induction f with
  | zero => intro s; rfl
  | succ f ih =>
    intro s
    simp only [thinkLoopF, deleteOpenersF]
    cases hsp : splitFirst openTag s with
    | none => rfl
    | some p => exact ih _

lemma thinkLoop_true_delete (s : Chunk) :
    thinkLoop s true = (deleteOpeners s, true) := by
  unfold thinkLoop deleteOpeners
  exact thinkLoopF_true_delete (2 * s.length + 19) s

lemma thinkLoop_flag (s : Chunk) (flag : Bool) :
    (thinkLoop s flag).2 = (flag || hasOcc openTag s) := by
  rw [thinkLoop_eq]
  cases hsp : splitFirst openTag s with
  | none => simp [hasOcc, hsp]
  | some p =>
    obtain ⟨a, b⟩ := p
    have hocc : hasOcc openTag s = true := by simp [hasOcc, hsp]
    rw [hocc]
    cases flag with
    | true =>
      simp only [if_pos]
      rw [thinkLoop_true_delete]
      rfl
    | false =>
      simp only [Bool.false_eq_true, if_neg, if_false]
      rw [thinkLoop_true_delete]
      rfl

lemma transform_flag (c : Chunk) (last flag : Bool) :
    (transform_chunk c last flag).2 = (flag || hasOcc openTag c) :=
  thinkLoop_flag c flag

lemma tryLoopF_flag_mono : ∀ (f : Nat) (buffer : List Chunk) (i : Nat)
    (fin : List Chunk) (part : Bool),
    (tryLoopF f buffer i fin true part).2.2 = true := by
  intro f
  induction f with
  | zero => intros; rfl
  | succ f ih =>
    intro buffer i fin part
    by_cases h : i < buffer.length
    · by_cases hc : hasOcc closeTag buffer[i] = true
      · by_cases hp : (part && decide (buffer.length ≤ i + 5)) = true
        · simp only [tryLoopF, dif_pos h, if_pos hc, if_pos hp]
        · simp only [tryLoopF, dif_pos h, if_pos hc, if_neg hp]
          rw [show (transform_chunk buffer[i]
              (!(((buffer.eraseIdx i).drop i).take 5).any (fun c => hasOcc closeTag c))
              true).2 = true by rw [transform_flag]; simp]
          exact ih _ _ _ _
      · simp only [tryLoopF, dif_pos h, if_neg hc]
        rw [show (transform_chunk buffer[i] false true).2 = true by
          rw [transform_flag]; simp]
        exact ih _ _ _ _
    · simp only [tryLoopF, dif_neg h]

lemma transduceLoop_flag_mono : ∀ (chunks buf : List Chunk),
    (transduceLoop chunks buf true).2.2 = true := by
  intro chunks
  induction chunks with
  | nil => intro buf; rfl
  | cons c rest ih =>
    intro buf
    simp only [transduceLoop]
    rw [show (try_finalize_chunks (buf ++ [c]) true true).2.2 = true from
      tryLoopF_flag_mono _ _ _ _ _]
    exact ih _

/-! ### Marker-free chunks pass through the whole pipeline untouched -/

/-- Every marker and every fragment pattern contains the two-character string
`k>`, so a chunk without `k>` triggers nothing in `_transform_chunk`. -/
lemma no_kgt_clean {c : Chunk} (hk : hasOcc ("k>".toList) c = false) :
    hasOcc openTag c = false ∧ hasOcc closeTag c = false ∧
    ∀ pat ∈ fragPatterns, hasOcc pat c = false := by
  refine ⟨hasOcc_sub_false ("<thin".toList) [] (by decide) hk,
    hasOcc_sub_false ("</thin".toList) [] (by decide) hk, ?_⟩
  intro pat hpat
  simp only [fragPatterns, List.map, List.mem_cons, List.not_mem_nil,
    or_false] at hpat
  rcases hpat with rfl | rfl | rfl | rfl | rfl | rfl
  · exact hasOcc_sub_false ("/thin".toList) [] (by decide) hk
  · exact hasOcc_sub_false ("thin".toList) [] (by decide) hk
  · exact hasOcc_sub_false ("hin".toList) [] (by decide) hk
  · exact hasOcc_sub_false ("in".toList) [] (by decide) hk
  · exact hasOcc_sub_false ("n".toList) [] (by decide) hk
  · exact hk

lemma transduceLoop_inert : ∀ (chunks : List Chunk) (flag : Bool),
    (∀ c ∈ chunks, hasOcc ("k>".toList) c = false) →
    transduceLoop chunks [] flag = (chunks, [], flag) := by
  intro chunks
  induction chunks with
  | nil => intro flag _; rfl
  | cons c rest ih =>
    intro flag h
    have hk := h c (by simp)
    obtain ⟨h1, h2, h3⟩ := no_kgt_clean hk
    simp only [transduceLoop, List.nil_append]
    rw [try_finalize_cons, if_neg (by simp [h2]),
      transform_frame h1 h2 h3, try_finalize_nil]
    simp only
    rw [ih flag (fun x hx => h x (by simp [hx]))]
    simp

/-! ### The stream driver -/

lemma err_notin_map_frag (l : List Chunk) : Out.err ∉ l.map Out.frag := by
  intro h
  obtain ⟨c, _, hc⟩ := List.mem_map.mp h
  exact absurd hc (by simp)

/-! ### Claims -/

/-- Claim C1, counterexample.  For the input chunks `"a</think>b"`,
`"c</think>d"` followed by end of stream, the claim says the output is
`"ab"` then `"c\n```\nd"` (only the last closer decorated).  In fact both
chunks are still buffered at stream end, so the forced finalization
transforms both with `is_last_think=True` and both closers receive the
block-close decoration: the output is `"a\n```\nb"` then `"c\n```\nd"`. -/
theorem C1_counterexample :
    transduce ["a</think>b".toList, "c</think>d".toList] =
      ["a\n```\nb".toList, "c\n```\nd".toList] ∧
    transduce ["a</think>b".toList, "c</think>d".toList] ≠
      ["ab".toList, "c\n```\nd".toList] := by
  exact ⟨by decide, by decide⟩

/-- Claim C1, amended.  The block-close decoration is not reserved for the
chunk with the last closer of the stream: every chunk drained by the forced
finalization at stream end is transformed with `is_last_think=True`, and a
chunk finalized in partial mode is decorated whenever its 5-chunk lookahead
window contains no closer — even if a closer arrives later.  Concretely:
`["a</think>b", "c</think>d"]` then end of stream yields `"a\n```\nb"` then
`"c\n```\nd"` (both forced, both decorated), and in the stream
`["a</think>b", "1", ..., "5", "c</think>d"]` the first chunk is already
decorated in partial mode although its closer is not the last one. -/
theorem C1_amended :
    transduceParts ["a</think>b".toList, "c</think>d".toList] =
      ([], ["a\n```\nb".toList, "c\n```\nd".toList]) ∧
    transduceParts ["a</think>b".toList, "1".toList, "2".toList, "3".toList,
        "4".toList, "5".toList, "c</think>d".toList] =
      (["a\n```\nb".toList, "1".toList, "2".toList, "3".toList, "4".toList,
        "5".toList], ["c\n```\nd".toList]) := by
  exact ⟨by decide, by decide⟩

/-- Claim C3, counterexample.  The claim says no output fragment ever
contains a raw `<think>` or `</think>`.  But the single input chunk
`"</thinkk>>"` (which contains neither marker) is emitted as `"</think>"`:
the fragment-removal pass deletes the inner `k>` and splices the remaining
text into a full raw closing marker, which leaks into the output. -/
theorem C3_counterexample :
    transduce ["</thinkk>>".toList] = ["</think>".toList] ∧
    hasOcc closeTag ("</think>".toList) = true := by
  exact ⟨by decide, by decide⟩

/-- Claim C3, amended.  If no input chunk contains the two-character
substring `k>`, every output fragment equals its input chunk and contains no
raw marker (every marker and fragment pattern contains `k>`).  A well-formed
marker stream such as `"<think>reasoning</think>answer"` is rewritten with
no marker leaking.  In general, however, marker-like debris can be spliced
into a full raw marker by the single-pass fragment removal (see the
counterexample), and a marker torn across chunk boundaries can leak its
opening half. -/
theorem C3_amended :
    (∀ chunks : List Chunk, (∀ c ∈ chunks, hasOcc ("k>".toList) c = false) →
      transduce chunks = chunks ∧
      ∀ out ∈ transduce chunks,
        hasOcc openTag out = false ∧ hasOcc closeTag out = false) ∧
    (transduce ["<think>reasoning</think>answer".toList] =
        ["\n```Reasoning...\nreasoning\n```\nanswer".toList] ∧
      ∀ out ∈ transduce ["<think>reasoning</think>answer".toList],
        hasOcc openTag out = false ∧ hasOcc closeTag out = false) := by
  constructor
  · intro chunks h
    have ht := transduceLoop_inert chunks false h
    have htr : transduce chunks = chunks := by
      unfold transduce transduceParts
      rw [ht]
      simp [finalize_all_chunks]
    refine ⟨htr, ?_⟩
    intro out hout
    rw [htr] at hout
    obtain ⟨h1, h2, _⟩ := no_kgt_clean (h out hout)
    exact ⟨h1, h2⟩
  · exact ⟨by decide, by decide⟩

/-- Witness for the amended claim C3, at the concrete chunk list
`["hi"]`. -/
theorem C3_amended_witness :
    (∀ c ∈ ["hi".toList], hasOcc ("k>".toList) c = false) ∧
    transduce ["hi".toList] = ["hi".toList] :=
  ⟨by decide, (C3_amended.1 ["hi".toList] (by decide)).1⟩

/-- Claim C4, counterexample.  The transformer is not idempotent with the
flags held fixed: on the chunk `"kk>>"` (no markers at all) one application
returns `"k>"` (the `k>` removal deletes the inner occurrence and splices a
new one), and a second application returns `""` ≠ `"k>"`. -/
theorem C4_counterexample :
    (transform_chunk ("kk>>".toList) false false).1 = "k>".toList ∧
    (transform_chunk ((transform_chunk ("kk>>".toList) false false).1)
        false false).1 = [] ∧
    (transform_chunk ((transform_chunk ("kk>>".toList) false false).1)
        false false).1 ≠ (transform_chunk ("kk>>".toList) false false).1 := by
  exact ⟨by decide, by decide, by decide⟩

/-- Claim C4, amended.  `_transform_chunk` is idempotent (flags held at the
same values) on every chunk whose first transform leaves no fragment-pattern
occurrence behind: then the output contains no marker either, so the second
application returns it unchanged.  The hypothesis is what the single-pass
fragment removal fails to guarantee in general (see the counterexample). -/
theorem C4_amended : ∀ (chunk : Chunk) (is_last_think first_think_found : Bool),
    (∀ pat ∈ fragPatterns,
      hasOcc pat (transform_chunk chunk is_last_think first_think_found).1 = false) →
    transform_chunk (transform_chunk chunk is_last_think first_think_found).1
        is_last_think first_think_found =
      ((transform_chunk chunk is_last_think first_think_found).1,
        first_think_found) := by
  intro chunk last flag h
  have hth := h ("think>".toList) (by simp [fragPatterns])
  have hsl := h ("/think>".toList) (by simp [fragPatterns])
  have h1 : hasOcc openTag (transform_chunk chunk last flag).1 = false :=
    hasOcc_sub_false ("<".toList) [] (by decide) hth
  have h2 : hasOcc closeTag (transform_chunk chunk last flag).1 = false :=
    hasOcc_sub_false ("<".toList) [] (by decide) hsl
  exact transform_frame h1 h2 h

/-- Witness for the amended claim C4, at the chunk `"a</think>b"` with
`is_last_think=True` and the context flag already set. -/
theorem C4_amended_witness :
    (∀ pat ∈ fragPatterns,
      hasOcc pat (transform_chunk ("a</think>b".toList) true true).1 = false) ∧
    transform_chunk (transform_chunk ("a</think>b".toList) true true).1
        true true =
      ((transform_chunk ("a</think>b".toList) true true).1, true) :=
  ⟨by decide, C4_amended ("a</think>b".toList) true true (by decide)⟩

/-- Claim C5 — confirmed.  In partial mode `_try_finalize_chunks` examines
the oldest buffered chunk: with no `</think>` it is popped, transformed with
`is_last_think=False` and appended to the output; with a `</think>` and
fewer than 5 chunks after it the scan stops, leaving it and everything later
buffered; with a `</think>` and at least 5 following chunks it is popped and
transformed with `is_last_think` true iff none of the next 5 remaining
chunks contains `</think>`.  The remaining buffer is always a contiguous
suffix of the pre-call buffer. -/
theorem C5_partial_scan :
    (∀ flag part : Bool, try_finalize_chunks [] flag part = ([], [], flag)) ∧
    (∀ (c : Chunk) (rest : List Chunk) (flag : Bool),
      try_finalize_chunks (c :: rest) flag true =
        if hasOcc closeTag c = true then
          if rest.length < 5 then ([], c :: rest, flag)
          else
            ((transform_chunk c
                (!((rest.take 5).any (fun x => hasOcc closeTag x))) flag).1 ::
              (try_finalize_chunks rest
                (transform_chunk c
                  (!((rest.take 5).any (fun x => hasOcc closeTag x))) flag).2
                true).1,
             (try_finalize_chunks rest
                (transform_chunk c
                  (!((rest.take 5).any (fun x => hasOcc closeTag x))) flag).2
                true).2)
        else
          ((transform_chunk c false flag).1 ::
            (try_finalize_chunks rest (transform_chunk c false flag).2 true).1,
           (try_finalize_chunks rest (transform_chunk c false flag).2 true).2)) ∧
    (∀ (buffer : List Chunk) (flag part : Bool),
      List.IsSuffix (try_finalize_chunks buffer flag part).2.1 buffer) :=
  ⟨try_finalize_nil, try_finalize_cons,
    fun buffer flag part => tryLoopF_suffix _ buffer [] flag part⟩

/-- Claim C7 — confirmed.  For the chunk sequence
`["<think>", "hello", "</think>", "world"]` followed by end of stream, the
transducer emits exactly `"\n```Reasoning...\n"`, `"hello"` in partial mode
and `"\n```\n"`, `"world"` by the forced finalization, in that order. -/
theorem C7_scenario_one :
    transduceParts ["<think>".toList, "hello".toList, "</think>".toList,
        "world".toList] =
      (["\n```Reasoning...\n".toList, "hello".toList],
       ["\n```\n".toList, "world".toList]) := by decide

/-- Claim C8 — confirmed.  `_finalize_all_chunks` drains the buffer strictly
from the front, transforms every chunk with `is_last_think` forced to
`True`, yields the results in arrival order (output for a front segment
precedes output for the rest — no reordering), produces one output per
buffered chunk, and leaves the buffer empty. -/
theorem C8_forced_drain :
    (∀ flag : Bool, finalize_all_chunks [] flag = ([], [], flag)) ∧
    (∀ (c : Chunk) (rest : List Chunk) (flag : Bool),
      finalize_all_chunks (c :: rest) flag =
        ((transform_chunk c true flag).1 ::
           (finalize_all_chunks rest (transform_chunk c true flag).2).1,
         (finalize_all_chunks rest (transform_chunk c true flag).2).2.1,
         (finalize_all_chunks rest (transform_chunk c true flag).2).2.2)) ∧
    (∀ (buf : List Chunk) (flag : Bool),
      (finalize_all_chunks buf flag).1.length = buf.length ∧
      (finalize_all_chunks buf flag).2.1 = []) ∧
    (∀ (b1 b2 : List Chunk) (flag : Bool),
      (finalize_all_chunks (b1 ++ b2) flag).1 =
        (finalize_all_chunks b1 flag).1 ++
          (finalize_all_chunks b2 (finalize_all_chunks b1 flag).2.2).1) :=
  ⟨fun _ => rfl, fun _ _ _ => rfl, finalize_length_empty,
    fun b1 b2 flag => (finalize_append b1 b2 flag).1⟩

/-- Claim C9 — confirmed.  A chunk containing no `<think>`, no `</think>`,
and none of the six closing-marker suffix fragments is returned unchanged by
`_transform_chunk`, for any `is_last_think` and any context state (which is
also left unchanged). -/
theorem C9_frame : ∀ (chunk : Chunk) (is_last_think first_think_found : Bool),
    hasOcc openTag chunk = false → hasOcc closeTag chunk = false →
    hasOcc ("/think>".toList) chunk = false →
    hasOcc ("think>".toList) chunk = false →
    hasOcc ("hink>".toList) chunk = false →
    hasOcc ("ink>".toList) chunk = false →
    hasOcc ("nk>".toList) chunk = false →
    hasOcc ("k>".toList) chunk = false →
    transform_chunk chunk is_last_think first_think_found =
      (chunk, first_think_found) := by
  intro chunk last flag h1 h2 h3 h4 h5 h6 h7 h8
  apply transform_frame h1 h2
  intro pat hpat
  simp only [fragPatterns, List.map, List.mem_cons, List.not_mem_nil,
    or_false] at hpat
  rcases hpat with rfl | rfl | rfl | rfl | rfl | rfl <;> assumption

/-- Witness for claim C9, at the chunk `"hello world"`. -/
theorem C9_frame_witness :
    hasOcc openTag ("hello world".toList) = false ∧
    transform_chunk ("hello world".toList) true false =
      ("hello world".toList, false) :=
  ⟨by decide, C9_frame ("hello world".toList) true false (by decide) (by decide)
    (by decide) (by decide) (by decide) (by decide) (by decide) (by decide)⟩

/-- Claim C2, counterexample.  On a malformed JSON data line the generator
yields the error payload and returns at once: no forced finalization runs,
and the buffered chunk `"a</think>b"` is dropped untransformed.  This
contradicts the claimed exactly-once flush on every exit path and the claim
that no error payload is yielded before the flush. -/
theorem C2_counterexample :
    (pipeRun [Line.delta ("a</think>b".toList), Line.malformed] [] false).flushes
        = 0 ∧
    (pipeRun [Line.delta ("a</think>b".toList), Line.malformed] [] false).buf
        ≠ [] ∧
    (pipeRun [Line.delta ("a</think>b".toList), Line.malformed] [] false).outs
        = [Out.err] := by
  exact ⟨by decide, by decide, by decide⟩

/-- Claim C2, amended.  At most one forced finalization runs per stream.  On
the `[DONE]`, finish-reason and in-stream-exception exit paths exactly one
forced finalization runs, the buffer is empty at exit, and any error payload
(exception path) is yielded last, after the flush.  But on a malformed JSON
data line the error payload is yielded with no finalization and the buffer
is abandoned as is, and end of stream without a terminator line exits with
no finalization at all. -/
theorem C2_amended : ∀ (lines : List Line) (buf : List Chunk) (flag : Bool),
    (pipeRun lines buf flag).flushes ≤ 1 ∧
    (match exitKind lines with
     | ExitKind.done =>
        (pipeRun lines buf flag).flushes = 1 ∧
        (pipeRun lines buf flag).buf = [] ∧
        Out.err ∉ (pipeRun lines buf flag).outs
     | ExitKind.finished =>
        (pipeRun lines buf flag).flushes = 1 ∧
        (pipeRun lines buf flag).buf = [] ∧
        Out.err ∉ (pipeRun lines buf flag).outs
     | ExitKind.exc =>
        (pipeRun lines buf flag).flushes = 1 ∧
        (pipeRun lines buf flag).buf = [] ∧
        ∃ pre, (pipeRun lines buf flag).outs = pre ++ [Out.err] ∧
          Out.err ∉ pre
     | ExitKind.malformed =>
        (pipeRun lines buf flag).flushes = 0 ∧
        ∃ pre, (pipeRun lines buf flag).outs = pre ++ [Out.err] ∧
          Out.err ∉ pre
     | ExitKind.eof =>
        (pipeRun lines buf flag).flushes = 0 ∧
        Out.err ∉ (pipeRun lines buf flag).outs) := by
  intro lines
  induction lines with
  | nil =>
    intro buf flag
    exact ⟨by simp [pipeRun], by simp [exitKind, pipeRun]⟩
  | cons l rest ih =>
    intro buf flag
    cases l with
    | noData =>
      have h := ih buf flag
      simpa [pipeRun, exitKind] using h
    | noChoices =>
      have h := ih buf flag
      simpa [pipeRun, exitKind] using h
    | done =>
      refine ⟨by simp [pipeRun], ?_⟩
      simp only [exitKind]
      refine ⟨by simp [pipeRun], ?_, ?_⟩
      · simp [pipeRun, (finalize_length_empty buf flag).2]
      · simp only [pipeRun]
        exact err_notin_map_frag _
    | finished =>
      refine ⟨by simp [pipeRun], ?_⟩
      simp only [exitKind]
      refine ⟨by simp [pipeRun], ?_, ?_⟩
      · simp [pipeRun, (finalize_length_empty buf flag).2]
      · simp only [pipeRun]
        exact err_notin_map_frag _
    | malformed =>
      refine ⟨by simp [pipeRun], ?_⟩
      simp only [exitKind]
      exact ⟨by simp [pipeRun], [], by simp [pipeRun], by simp⟩
    | exc =>
      refine ⟨by simp [pipeRun], ?_⟩
      simp only [exitKind]
      refine ⟨by simp [pipeRun], ?_,
        (finalize_all_chunks buf flag).1.map Out.frag, by simp [pipeRun],
        err_notin_map_frag _⟩
      simp [pipeRun, (finalize_length_empty buf flag).2]
    | delta c =>
      have ihh := ih (try_finalize_chunks (buf ++ [c]) flag true).2.1
        (try_finalize_chunks (buf ++ [c]) flag true).2.2
      constructor
      · simpa [pipeRun] using ihh.1
      · simp only [exitKind]
        cases hek : exitKind rest with
        | eof =>
          rw [hek] at ihh
          obtain ⟨hf, hni⟩ := ihh.2
          refine ⟨by simpa [pipeRun] using hf, ?_⟩
          simp only [pipeRun, List.mem_append]
          rintro (h | h)
          exacts [err_notin_map_frag _ h, hni h]
        | done =>
          rw [hek] at ihh
          obtain ⟨hf, hb, hni⟩ := ihh.2
          refine ⟨by simpa [pipeRun] using hf, by simpa [pipeRun] using hb, ?_⟩
          simp only [pipeRun, List.mem_append]
          rintro (h | h)
          exacts [err_notin_map_frag _ h, hni h]
        | finished =>
          rw [hek] at ihh
          obtain ⟨hf, hb, hni⟩ := ihh.2
          refine ⟨by simpa [pipeRun] using hf, by simpa [pipeRun] using hb, ?_⟩
          simp only [pipeRun, List.mem_append]
          rintro (h | h)
          exacts [err_notin_map_frag _ h, hni h]
        | exc =>
          rw [hek] at ihh
          obtain ⟨hf, hb, pre, hpre, hnotin⟩ := ihh.2
          refine ⟨by simpa [pipeRun] using hf, by simpa [pipeRun] using hb,
            (try_finalize_chunks (buf ++ [c]) flag true).1.map Out.frag ++ pre,
            ?_, ?_⟩
          · simp only [pipeRun]
            rw [hpre, List.append_assoc]
          · simp only [List.mem_append]
            rintro (h | h)
            exacts [err_notin_map_frag _ h, hnotin h]
        | malformed =>
          rw [hek] at ihh
          obtain ⟨hf, pre, hpre, hnotin⟩ := ihh.2
          refine ⟨by simpa [pipeRun] using hf,
            (try_finalize_chunks (buf ++ [c]) flag true).1.map Out.frag ++ pre,
            ?_, ?_⟩
          · simp only [pipeRun]
            rw [hpre, List.append_assoc]
          · simp only [List.mem_append]
            rintro (h | h)
            exacts [err_notin_map_frag _ h, hnotin h]

/-- Claim C6, counterexample.  The raw input may itself contain the
decoration text: for the single chunk `"\n```Reasoning...\n<think>x"`
(containing exactly one `<think>`) the total output contains the block-open
decoration twice — the literal copy passes through and the `<think>` is
replaced by a second copy — contradicting "the decoration appears at most
once in the total output". -/
theorem C6_counterexample :
    countOcc openTag ("\n```Reasoning...\n<think>x".toList) = 1 ∧
    countOcc openDeco
      (List.flatten (transduce ["\n```Reasoning...\n<think>x".toList])) = 2 := by
  exact ⟨by decide, by decide⟩

/-- Claim C6, amended.  The transducer inserts the decoration at most once
per stream: with the context flag set, the opener loop is pure deletion
(`thinkLoop s true = (deleteOpeners s, true)`); the flag after a transform is
the old flag OR-ed with "chunk contained `<think>`", so once true it stays
true for the rest of the stream (also through the whole driver loop); and
the first opener of a fresh context is replaced by the decoration while the
second is deleted: `"<think>x<think>y"` ↦ `"\n```Reasoning...\nxy"`.  The
decoration substring itself can still occur more than once in the output
when the raw input contains it literally (see the counterexample). -/
theorem C6_amended :
    (∀ s : Chunk, thinkLoop s true = (deleteOpeners s, true)) ∧
    (∀ (s : Chunk) (flag : Bool),
      (thinkLoop s flag).2 = (flag || hasOcc openTag s)) ∧
    (∀ chunks buf : List Chunk, (transduceLoop chunks buf true).2.2 = true) ∧
    transform_chunk ("<think>x<think>y".toList) false false =
      ("\n```Reasoning...\nxy".toList, true) ∧
    transform_chunk ("<think>x<think>y".toList) true false =
      ("\n```Reasoning...\nxy".toList, true) :=
  ⟨thinkLoop_true_delete, thinkLoop_flag, transduceLoop_flag_mono,
    by decide, by decide⟩

/-- Claim C10, counterexample.  An iteration of the `<think>` loop need not
decrease the number of `<think>` occurrences: deleting the (unique) leftmost
occurrence in `"<th<think>ink>"` splices the surrounding text into a new
`"<think>"`, so the count stays 1. -/
theorem C10_counterexample :
    countOcc openTag ("<th<think>ink>".toList) = 1 ∧
    thinkStep ("<th<think>ink>".toList) true = some ("<think>".toList, true) ∧
    countOcc openTag ("<think>".toList) = 1 := by
  exact ⟨by decide, by decide, by decide⟩

/-- Claim C10, amended.  `_transform_chunk` terminates on every input, but
for a different reason than the claimed occurrence-count decrease: each
deletion iteration of the `<think>` loop shortens the string by exactly 7
characters, the replacement iteration can fire only with the flag false and
sets it true (so it fires at most once, even though it lengthens the string
by 10); each iteration of the `</think>` loop shortens the string by 3
(replacement) or 8 (deletion); and the trailing fragment removal is a fixed
sequence of six structurally recursive replace passes. -/
theorem C10_amended :
    (∀ s : Chunk,
      match thinkStep s true with
      | none => thinkLoop s true = (s, true)
      | some r => r.2 = true ∧ r.1.length + 7 = s.length ∧
          thinkLoop s true = thinkLoop r.1 r.2) ∧
    (∀ s : Chunk,
      match thinkStep s false with
      | none => thinkLoop s false = (s, false)
      | some r => r.2 = true ∧ r.1.length = s.length + 10 ∧
          thinkLoop s false = thinkLoop r.1 r.2) ∧
    (∀ s : Chunk,
      match closeStep s true with
      | none => closeLoop s true = s
      | some t => t.length + 3 = s.length ∧ closeLoop s true = closeLoop t true) ∧
    (∀ s : Chunk,
      match closeStep s false with
      | none => closeLoop s false = s
      | some t => t.length + 8 = s.length ∧
          closeLoop s false = closeLoop t false) ∧
    (∀ s : Chunk, stripFragments s =
      removePat ("k>".toList) (removePat ("nk>".toList) (removePat ("ink>".toList)
        (removePat ("hink>".toList) (removePat ("think>".toList)
          (removePat ("/think>".toList) s)))))) := by
  refine ⟨?_, ?_, ?_, ?_, fun s => rfl⟩
  · intro s
    unfold thinkStep
    cases hsp : splitFirst openTag s with
    | none => exact thinkLoop_none hsp
    | some p =>
      obtain ⟨a, b⟩ := p
      have h := congrArg List.length (splitFirst_some hsp)
      simp only [List.length_append, openTag_length] at h
      show true = true ∧ (a ++ b).length + 7 = s.length ∧
        thinkLoop s true = thinkLoop (a ++ b) true
      refine ⟨rfl, by simp only [List.length_append]; omega, ?_⟩
      rw [thinkLoop_eq, hsp]
      rfl
  · intro s
    unfold thinkStep
    cases hsp : splitFirst openTag s with
    | none => exact thinkLoop_none hsp
    | some p =>
      obtain ⟨a, b⟩ := p
      have h := congrArg List.length (splitFirst_some hsp)
      simp only [List.length_append, openTag_length] at h
      show true = true ∧ (a ++ openDeco ++ b).length = s.length + 10 ∧
        thinkLoop s false = thinkLoop (a ++ openDeco ++ b) true
      refine ⟨rfl,
        by simp only [List.length_append, openDeco_length]; omega, ?_⟩
      rw [thinkLoop_eq, hsp]
      rfl
  · intro s
    unfold closeStep
    cases hsp : splitFirst closeTag s with
    | none => exact closeLoop_none hsp
    | some p =>
      obtain ⟨a, b⟩ := p
      have h := congrArg List.length (splitFirst_some hsp)
      simp only [List.length_append, closeTag_length] at h
      show (a ++ closeDeco ++ b).length + 3 = s.length ∧
        closeLoop s true = closeLoop (a ++ closeDeco ++ b) true
      refine ⟨by simp only [List.length_append, closeDeco_length]; omega, ?_⟩
      rw [closeLoop_eq, hsp]
      rfl
  · intro s
    unfold closeStep
    cases hsp : splitFirst closeTag s with
    | none => exact closeLoop_none hsp
    | some p =>
      obtain ⟨a, b⟩ := p
      have h := congrArg List.length (splitFirst_some hsp)
      simp only [List.length_append, closeTag_length] at h
      show (a ++ b).length + 8 = s.length ∧
        closeLoop s false = closeLoop (a ++ b) false
      refine ⟨by simp only [List.length_append]; omega, ?_⟩
      rw [closeLoop_eq, hsp]
      rfl

end CoT
